import Mathlib

/-!
Verification of the study-session scheduling and mastery engine of the
Collate flashcard application.

The definitions below are a shallow embedding of the TypeScript source:

* `src/app/dashboard/page.tsx` — `calculateMastery`, `shuffleArray`,
  `REVIEW_INTERVALS`, `handleRateFlashcard`, `prepareStudyFlashcards`;
* `src/components/flashcard-viewer.tsx` — the session state
  (`studyQueue`, `currentIndex`, counters), `handleRate`, `goToPrevious`,
  `goToNext`, `handleKeyDown` digit handling, `calculateSessionSummary`.

Modelling conventions:

* Timestamps are integers counted in days (`serverTimestamp()` and
  `new Date()` become a `now : ℤ` parameter; `setDate(getDate() + d)`
  becomes `now + d`).
* JavaScript floating-point numbers are modelled as exact rationals
  (`0.6` is `3/5`, `0.4` is `2/5`); `Math.floor` is `Int.floor`.
* `Math.random()` samples are injected: as a rational `u ∈ [0,1)` where
  the sampled value enters arithmetic (the requeue jitter), and as a
  stream `ℕ → ℕ` reduced mod the bucket size where only the resulting
  index matters (the Fisher–Yates shuffle picks `j = ⌊random()·(i+1)⌋`,
  which ranges over exactly `[0, i]`, the range of `u i % (i + 1)`).
* Firestore persistence plus the snapshot listener that feeds the
  dashboard `flashcards` state are modelled as a synchronous update of a
  `store : List Flashcard`; the session viewer's `studyQueue` keeps the
  card objects captured at session start, exactly as in the source,
  where the queue is seeded once from the `flashcards` prop.
* A JavaScript `array.includes(x)` on card objects is value equality of
  the embedded structures (`x ∈ l` with decidable equality).
-/

namespace Collate

/-- The `Flashcard` record of `src/app/dashboard/page.tsx`, restricted to
the fields the scheduling/rating core reads: identity, provenance ids and
display names, content, and the mutable study statistics.  Fields never
read by the core (`type`, `source`, `isEdited`, original texts, created /
updated timestamps) are omitted. -/
structure Flashcard where
  id : String
  fileId : Option String
  fileName : Option String
  courseId : Option String
  courseName : Option String
  deckId : Option String
  question : String
  answer : String
  latestRating : Option ℤ
  ratingCount : ℕ
  consecutiveFives : ℕ
  averageRating : Option ℚ
  mastered : Bool
  masteredAt : Option ℤ
  nextReviewAt : Option ℤ
deriving DecidableEq

/-- The `REVIEW_INTERVALS` lookup table of `src/app/dashboard/page.tsx`
(`Record<number, number>`): ratings 1..5 map to 1, 1, 3, 7, 30 days; any
other key is absent (`undefined` in JavaScript). -/
def REVIEW_INTERVALS (rating : ℤ) : Option ℤ :=
  if rating = 1 then some 1
  else if rating = 2 then some 1
  else if rating = 3 then some 3
  else if rating = 4 then some 7
  else if rating = 5 then some 30
  else none

/-- The statistics update performed by `handleRateFlashcard` in
`src/app/dashboard/page.tsx` on the card it found: new consecutive-fives
streak, mastery re-computation, incremental average, and next review
date.  `nextReviewAt` is `none` when the interval lookup misses (in the
source the date arithmetic with `undefined` produces an invalid date).
Note the source computes `mastered = consecutiveFives >= 3` from the new
streak alone; the prior `mastered` flag does not enter. -/
def handleRateStats (now : ℤ) (rating : ℤ) (c : Flashcard) : Flashcard :=
  let consecutiveFives : ℕ := if rating = 5 then c.consecutiveFives + 1 else 0
  let mastered : Bool := decide (3 ≤ consecutiveFives)
  let totalRatings : ℕ := c.ratingCount + 1
  let currentSum : ℚ := (c.averageRating.getD 0) * (c.ratingCount : ℚ)
  let newAverage : ℚ := (currentSum + (rating : ℚ)) / (totalRatings : ℚ)
  { c with
    latestRating := some rating
    ratingCount := totalRatings
    consecutiveFives := consecutiveFives
    averageRating := some newAverage
    mastered := mastered
    masteredAt := if mastered then some now else c.masteredAt
    nextReviewAt := (REVIEW_INTERVALS rating).map (fun d => now + d) }

/-- Update the first list element satisfying `p` (Firestore's
`updateDoc` addresses one document by id). -/
def updateFirst (p : α → Bool) (g : α → α) : List α → List α
  | [] => []
  | x :: xs => if p x then g x :: xs else x :: updateFirst p g xs

/-- `handleRateFlashcard` of `src/app/dashboard/page.tsx` at the store
level: look the card up by id in the dashboard `flashcards` state; if it
is absent the handler returns without touching anything; otherwise the
recomputed statistics are persisted for that card. -/
def handleRateFlashcard (now : ℤ) (store : List Flashcard) (cardId : String)
    (rating : ℤ) : List Flashcard :=
  match store.find? (fun f => f.id = cardId) with
  | none => store
  | some _ => updateFirst (fun f => f.id = cardId) (handleRateStats now rating) store

/-- A concrete already-mastered card (three consecutive fives recorded). -/
def masteredCard : Flashcard :=
  { id := "A", fileId := none, fileName := none, courseId := none,
    courseName := none, deckId := none, question := "q", answer := "a",
    latestRating := some 5, ratingCount := 3, consecutiveFives := 3,
    averageRating := none, mastered := true, masteredAt := some 0,
    nextReviewAt := some 30 }

/-- C1 counterexample: the claim says a rating-processing call computes
`mastered = prior.mastered OR newly_mastered`, so a non-5 rating on an
already-mastered card keeps `mastered = true`.  On the code, processing
rating 3 on a mastered card (streak 3) resets `mastered` to `false`:
the source recomputes `mastered` from the new streak alone. -/
theorem mastery_not_monotonic_cex :
    masteredCard.mastered = true ∧
    (handleRateStats 100 3 masteredCard).mastered = false := by
  constructor <;> rfl

/-- C1 amended: the processor computes `mastered` from the new
consecutive-fives streak alone, so for a card that is mastered with a
streak of at least 3 (as every card mastered by the processor is), a
subsequent rating keeps `mastered = true` exactly when that rating is 5;
any non-5 rating resets `mastered` to `false`. -/
theorem mastery_preserved_iff_five (now r : ℤ) (c : Flashcard)
    (hm : c.mastered = true) (hs : 3 ≤ c.consecutiveFives) :
    (handleRateStats now r c).mastered = true ↔ r = 5 := by
  simp only [handleRateStats, decide_eq_true_eq]
  constructor
  · intro h
    by_contra hne
    simp [hne] at h
  · intro h
    simp [h]
    omega

/-- C1 amended, witness: rating 5 on a concrete mastered card keeps it
mastered. -/
theorem mastery_preserved_iff_five_witness :
    masteredCard.mastered = true ∧ 3 ≤ masteredCard.consecutiveFives ∧
    ((handleRateStats 100 5 masteredCard).mastered = true ↔ (5 : ℤ) = 5) :=
  ⟨rfl, by decide, mastery_preserved_iff_five 100 5 masteredCard rfl (by decide)⟩

/-- C8: for each accepted rating 1..5 the processor schedules the next
review `now + d` days away with `d` from the fixed table 1, 1, 3, 7, 30;
in particular rating 4 yields exactly `now + 7`. -/
theorem next_review_schedule (now : ℤ) (c : Flashcard) :
    (handleRateStats now 1 c).nextReviewAt = some (now + 1) ∧
    (handleRateStats now 2 c).nextReviewAt = some (now + 1) ∧
    (handleRateStats now 3 c).nextReviewAt = some (now + 3) ∧
    (handleRateStats now 4 c).nextReviewAt = some (now + 7) ∧
    (handleRateStats now 5 c).nextReviewAt = some (now + 30) := by
  refine ⟨?_, ?_, ?_, ?_, ?_⟩ <;> rfl

/-- Folding the rating processor over a list of ratings: the rating count
grows by the number of ratings, the running average times the new count
accumulates the sum of the ratings, and the average is present once a
rating has been processed. -/
theorem rate_fold_invariant (now : ℤ) :
    ∀ (rs : List ℤ) (c : Flashcard),
      (rs.foldl (fun s r => handleRateStats now r s) c).ratingCount
          = c.ratingCount + rs.length ∧
      ((rs.foldl (fun s r => handleRateStats now r s) c).averageRating.getD 0)
            * ((c.ratingCount + rs.length : ℕ) : ℚ)
          = (c.averageRating.getD 0) * (c.ratingCount : ℚ)
            + (rs.map (fun r : ℤ => (r : ℚ))).sum ∧
      (rs ≠ [] →
        (rs.foldl (fun s r => handleRateStats now r s) c).averageRating.isSome = true)
  | [], c => by simp
  | r :: rs, c => by
    have step : (handleRateStats now r c).ratingCount = c.ratingCount + 1 := rfl
    have stepAvg : (handleRateStats now r c).averageRating
        = some (((c.averageRating.getD 0) * (c.ratingCount : ℚ) + (r : ℚ))
            / ((c.ratingCount + 1 : ℕ) : ℚ)) := rfl
    obtain ⟨ih1, ih2, ih3⟩ := rate_fold_invariant now rs (handleRateStats now r c)
    refine ⟨?_, ?_, ?_⟩
    · simp only [List.foldl_cons, List.length_cons]
      rw [ih1, step]
      omega
    · have hne : ((c.ratingCount + 1 : ℕ) : ℚ) ≠ 0 := by
        exact_mod_cast Nat.succ_ne_zero c.ratingCount
      rw [step, stepAvg] at ih2
      simp only [Option.getD_some] at ih2
      have hlen' : c.ratingCount + (r :: rs).length = (c.ratingCount + 1) + rs.length := by
        simp [List.length_cons]; omega
      simp only [List.foldl_cons]
      rw [hlen', ih2, div_mul_cancel₀ _ hne]
      simp only [List.map_cons, List.sum_cons]
      ring
    · intro _
      simp only [List.foldl_cons]
      rcases rs with _ | ⟨r', rs'⟩
      · simp only [List.foldl_nil, stepAvg, Option.isSome_some]
      · exact ih3 (by simp)

/-- C7: starting from a fresh card (`rating_count = 0`; any prior average
is multiplied by that zero count, hence "treated as 0"), processing the
ratings `r_1..r_n` in order yields `rating_count = n` and
`average_rating = (r_1 + ⋯ + r_n) / n`. -/
theorem average_is_arithmetic_mean (now : ℤ) (rs : List ℤ) (c : Flashcard)
    (h0 : c.ratingCount = 0) (hne : rs ≠ []) :
    (rs.foldl (fun s r => handleRateStats now r s) c).ratingCount = rs.length ∧
    (rs.foldl (fun s r => handleRateStats now r s) c).averageRating
      = some ((rs.map (fun r : ℤ => (r : ℚ))).sum / (rs.length : ℚ)) := by
  obtain ⟨h1, h2, h3⟩ := rate_fold_invariant now rs c
  rw [h0] at h1 h2
  simp only [Nat.zero_add, Nat.cast_zero, mul_zero, zero_add] at h1 h2
  refine ⟨h1, ?_⟩
  have hlen : ((rs.length : ℕ) : ℚ) ≠ 0 := by
    exact_mod_cast fun h => hne (List.length_eq_zero.mp h)
  obtain ⟨q, hq⟩ := Option.isSome_iff_exists.mp (h3 hne)
  rw [hq]
  rw [hq] at h2
  simp only [Option.getD_some] at h2
  rw [(eq_div_iff hlen).mpr h2]

/-- A concrete never-studied card. -/
def freshCard : Flashcard :=
  { masteredCard with
    latestRating := none
    ratingCount := 0
    consecutiveFives := 0
    mastered := false
    masteredAt := none
    nextReviewAt := none }

/-- C7 witness: rating a fresh card 5 then 3 gives count 2 and average 4. -/
theorem average_is_arithmetic_mean_witness :
    (([5, 3] : List ℤ).foldl (fun s r => handleRateStats 0 r s) freshCard).ratingCount = 2 ∧
    (([5, 3] : List ℤ).foldl (fun s r => handleRateStats 0 r s) freshCard).averageRating
      = some 4 := by
  have h := average_is_arithmetic_mean 0 ([5, 3] : List ℤ) freshCard rfl (by simp)
  refine ⟨by simpa using h.1, ?_⟩
  rw [h.2]
  norm_num

/-- `calculateMastery` of `src/app/dashboard/page.tsx`: aggregate mastery
percentage and tier color over a card list.  Empty input and input with
no studied card (`ratingCount > 0`) both yield percentage 0 with the
neutral color; otherwise the mean of the studied cards' average ratings
is rescaled from [1,5] to [0,100] and rounded (`Math.round`, i.e.
`⌊x + 1/2⌋`, which is Mathlib's `round` on ℚ). -/
def calculateMastery (cards : List Flashcard) : ℤ × String :=
  if cards.length = 0 then (0, "#8B7355")
  else
    let studiedCards := cards.filter (fun c => decide (0 < c.ratingCount))
    if studiedCards.length = 0 then (0, "#8B7355")
    else
      let avgRating : ℚ :=
        (studiedCards.map (fun c => c.averageRating.getD 0)).sum / (studiedCards.length : ℚ)
      let percentage : ℤ := round (((avgRating - 1) / 4) * 100)
      if 80 ≤ percentage then (percentage, "#7CB342")
      else if 60 ≤ percentage then (percentage, "#FFB74D")
      else (percentage, "#E57373")

/-- The spec's tier enumeration for the Mastery Calculator output. -/
inductive Tier
  | low
  | medium
  | high
deriving DecidableEq

/-- Modelled from the spec: the abstraction from the source's concrete
tier colors to the spec's `{low, medium, high}` enumeration.  Green is
`high`, amber is `medium`, red is `low`, and the neutral no-data color
is collapsed into the low bucket, as §4.1 of the spec states
("neutral/no-data is collapsed into the low-color bucket"). -/
def specTierOfColor (color : String) : Option Tier :=
  if color = "#7CB342" then some Tier.high
  else if color = "#FFB74D" then some Tier.medium
  else if color = "#E57373" then some Tier.low
  else if color = "#8B7355" then some Tier.low
  else none

/-- C9: with no studied card the Mastery Calculator returns percentage 0
and a color in the low tier; otherwise it returns
`round(((mean of studied average ratings) - 1) / 4 * 100)` with tier
`high` when the percentage is at least 80, `medium` when at least 60,
and `low` otherwise. -/
theorem mastery_calculator_correct (cards : List Flashcard) :
    (cards.filter (fun c => decide (0 < c.ratingCount)) = [] →
      (calculateMastery cards).1 = 0 ∧
      specTierOfColor (calculateMastery cards).2 = some Tier.low) ∧
    (cards.filter (fun c => decide (0 < c.ratingCount)) ≠ [] →
      (calculateMastery cards).1 =
        round ((((cards.filter (fun c => decide (0 < c.ratingCount))).map
              (fun c => c.averageRating.getD 0)).sum
            / ((cards.filter (fun c => decide (0 < c.ratingCount))).length : ℚ) - 1)
          / 4 * 100) ∧
      specTierOfColor (calculateMastery cards).2 =
        some (if 80 ≤ (calculateMastery cards).1 then Tier.high
          else if 60 ≤ (calculateMastery cards).1 then Tier.medium
          else Tier.low)) := by
  constructor
  · intro hempty
    unfold calculateMastery
    by_cases hc : cards.length = 0
    · constructor <;> simp [hc, specTierOfColor]
    · constructor <;> simp [hc, hempty, specTierOfColor]
  · intro hne
    have hc : ¬cards.length = 0 := by
      intro h
      rw [List.length_eq_zero.mp h] at hne
      simp at hne
    have hs : ¬(cards.filter (fun c => decide (0 < c.ratingCount))).length = 0 := by
      intro h
      exact hne (List.length_eq_zero.mp h)
    unfold calculateMastery
    simp only [hc, if_false, hs]
    set p : ℤ := round ((((cards.filter (fun c => decide (0 < c.ratingCount))).map
          (fun c => c.averageRating.getD 0)).sum
        / ((cards.filter (fun c => decide (0 < c.ratingCount))).length : ℚ) - 1)
      / 4 * 100) with hp
    by_cases h80 : 80 ≤ p
    · simp [h80, specTierOfColor]
    · by_cases h60 : 60 ≤ p
      · simp [h80, h60, specTierOfColor]
      · simp [h80, h60, specTierOfColor]

/-- A concrete card rated once with rating 5. -/
def ratedCard : Flashcard :=
  { freshCard with
    latestRating := some 5
    ratingCount := 1
    consecutiveFives := 1
    averageRating := some 5 }

/-- C9 witness: a single card studied once with average 5 yields
percentage 100 and tier `high`; the fresh card alone yields percentage 0
and tier `low`. -/
theorem mastery_calculator_correct_witness :
    ((calculateMastery [ratedCard]).1 = 100 ∧
      specTierOfColor (calculateMastery [ratedCard]).2 = some Tier.high) ∧
    ((calculateMastery [freshCard]).1 = 0 ∧
      specTierOfColor (calculateMastery [freshCard]).2 = some Tier.low) := by
  constructor
  · have h := (mastery_calculator_correct [ratedCard]).2 (by decide)
    have hval : (calculateMastery [ratedCard]).1 = 100 := by
      rw [h.1]
      have : ((([ratedCard].filter (fun c => decide (0 < c.ratingCount))).map
            (fun c => c.averageRating.getD 0)).sum
          / (([ratedCard].filter (fun c => decide (0 < c.ratingCount))).length : ℚ) - 1)
          / 4 * 100 = 100 := by
        norm_num [ratedCard, freshCard, masteredCard, List.filter]
      rw [this]
      norm_num [round_eq]
    refine ⟨hval, ?_⟩
    rw [h.2, hval]
    norm_num
  · exact (mastery_calculator_correct [freshCard]).1 (by decide)

/-- Swap the elements at indices `i` and `j` (the destructuring swap of
the source's Fisher–Yates loop); out-of-range indices leave the list
unchanged. -/
def swapNth (l : List α) (i j : ℕ) : List α :=
  match l[i]?, l[j]? with
  | some x, some y => (l.set i y).set j x
  | _, _ => l

/-- The Fisher–Yates loop of `shuffleArray` in
`src/app/dashboard/page.tsx`: for `i` from `n` down to `1`, swap index
`i` with index `u i % (i + 1)` (the embedding of
`Math.floor(Math.random() * (i + 1))`, whose range is `[0, i]`). -/
def fisherYatesAux (u : ℕ → ℕ) : ℕ → List α → List α
  | 0, l => l
  | n + 1, l => fisherYatesAux u n (swapNth l (n + 1) (u (n + 1) % (n + 2)))

/-- `shuffleArray` of `src/app/dashboard/page.tsx`. -/
def shuffleArray (u : ℕ → ℕ) (l : List α) : List α :=
  fisherYatesAux u (l.length - 1) l

/-- Setting index `i` (currently holding `b`) to `x` exchanges one
occurrence of `b` for one of `x` in the element counts. -/
theorem count_set_aux [DecidableEq α] (a x b : α) :
    ∀ (l : List α) (i : ℕ), l[i]? = some b →
      List.count a (l.set i x) + (if b = a then 1 else 0)
        = List.count a l + (if x = a then 1 else 0)
  | [], i, h => by simp at h
  | c :: t, 0, h => by
    simp only [List.getElem?_cons_zero, Option.some.injEq] at h
    subst h
    simp only [List.set_cons_zero, List.count_cons]
    by_cases hx : x = a <;> by_cases hb : c = a <;>
      simp [hx, hb] <;> omega
  | c :: t, i + 1, h => by
    simp only [List.getElem?_cons_succ] at h
    have ih := count_set_aux a x b t i h
    simp only [List.set_cons_succ, List.count_cons]
    by_cases hc : c = a <;> simp [hc] <;> omega

/-- A swap of two positions is a permutation. -/
theorem swapNth_perm [DecidableEq α] (l : List α) (i j : ℕ) :
    (swapNth l i j).Perm l := by
  unfold swapNth
  cases hi : l[i]? with
  | none => cases l[j]? <;> exact List.Perm.refl l
  | some x =>
    cases hj : l[j]? with
    | none => exact List.Perm.refl l
    | some y =>
      show ((l.set i y).set j x).Perm l
      rw [List.perm_iff_count]
      intro a
      have hilt : i < l.length := (List.getElem?_eq_some_iff.mp hi).1
      have h1 := count_set_aux a y x l i hi
      have hj2 : (l.set i y)[j]? = some y := by
        rw [List.getElem?_set]
        by_cases hij : i = j
        · simp [hij, hilt, hij ▸ hilt]
        · simp [hij, hj]
      have h2 := count_set_aux a x y (l.set i y) j hj2
      split_ifs at h1 h2 <;> omega

/-- The Fisher–Yates loop permutes its input. -/
theorem fisherYatesAux_perm [DecidableEq α] (u : ℕ → ℕ) :
    ∀ (n : ℕ) (l : List α), (fisherYatesAux u n l).Perm l
  | 0, l => List.Perm.refl l
  | n + 1, l =>
    (fisherYatesAux_perm u n _).trans (swapNth_perm l (n + 1) (u (n + 1) % (n + 2)))

/-- `shuffleArray` returns a permutation of its input. -/
theorem shuffleArray_perm [DecidableEq α] (u : ℕ → ℕ) (l : List α) :
    (shuffleArray u l).Perm l :=
  fisherYatesAux_perm u (l.length - 1) l

/-- The due-for-review test of `prepareStudyFlashcards`:
`c.nextReviewAt && new Date(c.nextReviewAt) <= now`. -/
def isDue (now : ℤ) (c : Flashcard) : Bool :=
  match c.nextReviewAt with
  | some t => decide (t ≤ now)
  | none => false

/-- The weak-card test of `prepareStudyFlashcards`:
`c.latestRating !== null && c.latestRating <= 2`. -/
def isWeak (c : Flashcard) : Bool :=
  match c.latestRating with
  | some r => decide (r ≤ 2)
  | none => false

/-- The never-studied test of `prepareStudyFlashcards`:
`c.latestRating === null`. -/
def isNeverStudied (c : Flashcard) : Bool :=
  c.latestRating.isNone

/-- The `dueForReview` list of `prepareStudyFlashcards`, filtered from
the non-mastered study pool. -/
def dueForReview (now : ℤ) (studyCards : List Flashcard) : List Flashcard :=
  studyCards.filter (isDue now)

/-- The `weakCards` list of `prepareStudyFlashcards`. -/
def weakCards (studyCards : List Flashcard) : List Flashcard :=
  studyCards.filter isWeak

/-- The `neverStudied` list of `prepareStudyFlashcards`. -/
def neverStudied (studyCards : List Flashcard) : List Flashcard :=
  studyCards.filter isNeverStudied

/-- The `otherCards` list of `prepareStudyFlashcards`: not contained
(JavaScript `includes`) in any of the three earlier groups. -/
def otherCards (now : ℤ) (studyCards : List Flashcard) : List Flashcard :=
  studyCards.filter (fun c =>
    !((dueForReview now studyCards).contains c)
      && !((weakCards studyCards).contains c)
      && !((neverStudied studyCards).contains c))

/-- The smart-mode ordering of `prepareStudyFlashcards`: due cards,
then weak cards not already in the due group, then never-studied cards,
then everything else, each group shuffled internally.  `u i` is the
random stream consumed by the `i`-th shuffle. -/
def smartOrder (u : ℕ → ℕ → ℕ) (now : ℤ) (studyCards : List Flashcard) : List Flashcard :=
  shuffleArray (u 0) (dueForReview now studyCards)
    ++ shuffleArray (u 1)
        ((weakCards studyCards).filter (fun c => !((dueForReview now studyCards).contains c)))
    ++ shuffleArray (u 2) (neverStudied studyCards)
    ++ shuffleArray (u 3) (otherCards now studyCards)

/-- The study mode selected in the pre-study modal. -/
inductive StudyMode
  | smart
  | all
deriving DecidableEq

/-- `prepareStudyFlashcards` of `src/app/dashboard/page.tsx`: drop
mastered cards, order by mode (`smart` priority groups or a plain
shuffle), then truncate to the limit (`none` is the "all" limit). -/
def prepareStudyFlashcards (u : ℕ → ℕ → ℕ) (now : ℤ) (cards : List Flashcard)
    (mode : StudyMode) (limit : Option ℕ) : List Flashcard :=
  let studyCards := cards.filter (fun c => !c.mastered)
  let ordered :=
    match mode with
    | StudyMode.smart => smartOrder u now studyCards
    | StudyMode.all => shuffleArray (u 0) studyCards
  match limit with
  | some n => if n < ordered.length then ordered.take n else ordered
  | none => ordered

/-- Count of an element in a filtered list: the full count if the
element passes the filter, zero otherwise. -/
theorem count_filter_eq [DecidableEq α] (p : α → Bool) (l : List α) (a : α) :
    List.count a (l.filter p) = if p a then List.count a l else 0 := by
  by_cases hp : p a
  · rw [if_pos hp, List.count_filter hp]
  · rw [if_neg hp, List.count_eq_zero]
    intro hmem
    exact hp (List.mem_filter.mp hmem).2

/-- A card with no rating yet but a due review date: impossible for
cards produced by the rating processor (which always sets
`latestRating` together with `nextReviewAt`), but nothing prevents such
an input pool. -/
def dueNeverCard : Flashcard :=
  { freshCard with nextReviewAt := some 0 }

/-- C4 counterexample: the claim says the four smart-mode groups are
disjoint and their concatenation contains each non-mastered card once.
A non-mastered card with `latestRating = null` and a due `nextReviewAt`
falls into both the due-for-review group and the never-studied group,
and the selector emits it at two positions. -/
theorem selector_groups_cex :
    prepareStudyFlashcards (fun _ _ => 0) 0 [dueNeverCard] StudyMode.smart none
      = [dueNeverCard, dueNeverCard] ∧
    [dueNeverCard].filter (fun c => !c.mastered) = [dueNeverCard] := by
  constructor <;> rfl

/-- `contains` (JavaScript `includes`) agrees with list membership. -/
theorem contains_eq_decide_mem [DecidableEq α] (l : List α) (a : α) :
    l.contains a = decide (a ∈ l) := by
  by_cases h : a ∈ l
  · simp [h]
  · simp [h]

/-- Membership in each smart-mode group, evaluated at an element of the
study pool, is exactly the group's predicate. -/
theorem contains_filter_group [DecidableEq α] (p : α → Bool) (s : List α) (a : α)
    (ha : a ∈ s) : (s.filter p).contains a = p a := by
  rw [contains_eq_decide_mem]
  by_cases hp : p a
  · simp [List.mem_filter, ha, hp]
  · simp [List.mem_filter, hp]

/-- A weak card has a rating, hence is not never-studied. -/
theorem hweak_not_never_aux (c : Flashcard) :
    isWeak c = true → isNeverStudied c = false := by
  intro hw
  unfold isWeak at hw
  unfold isNeverStudied
  cases h : c.latestRating with
  | none => rw [h] at hw; simp at hw
  | some r => simp [h]

/-- The concatenation of the four smart-mode groups (before shuffling)
has the same element counts as the study pool, provided no card is both
never-studied and due. -/
theorem smart_groups_count (now : ℤ) (s : List Flashcard)
    (hnd : ∀ c ∈ s, isNeverStudied c = true → isDue now c = false) (a : Flashcard) :
    List.count a (dueForReview now s
        ++ ((weakCards s).filter (fun c => !((dueForReview now s).contains c))
        ++ (neverStudied s ++ otherCards now s)))
      = List.count a s := by
  by_cases ha : a ∈ s
  · have hcd : ((s.filter (isDue now)).contains a) = isDue now a :=
      contains_filter_group (isDue now) s a ha
    have hcw : ((s.filter isWeak).contains a) = isWeak a :=
      contains_filter_group isWeak s a ha
    have hcn : ((s.filter isNeverStudied).contains a) = isNeverStudied a :=
      contains_filter_group isNeverStudied s a ha
    simp only [List.count_append, otherCards, dueForReview, weakCards, neverStudied]
    simp only [count_filter_eq]
    rw [hcd, hcw, hcn]
    by_cases hd : isDue now a
    · have hn : isNeverStudied a = false := by
        cases hcase : isNeverStudied a
        · rfl
        · have := hnd a ha hcase
          rw [hd] at this
          exact Bool.noConfusion this
      simp [hd, hn]
    · simp only [Bool.not_eq_true] at hd
      by_cases hw : isWeak a
      · have hn := hweak_not_never_aux a hw
        simp [hd, hw, hn]
      · simp only [Bool.not_eq_true] at hw
        by_cases hn : isNeverStudied a
        · simp [hd, hw, hn]
        · simp only [Bool.not_eq_true] at hn
          simp [hd, hw, hn]
  · have hcount : List.count a s = 0 := List.count_eq_zero.mpr ha
    have hle : ∀ (t : List Flashcard) (p : Flashcard → Bool),
        List.count a (t.filter p) ≤ List.count a t := by
      intro t p
      exact (List.filter_sublist t).count_le a
    have h1 := hle s (isDue now)
    have h2 := hle s isWeak
    have h3 := hle s isNeverStudied
    have h4 := hle s (fun c =>
      !((s.filter (isDue now)).contains c) && !((s.filter isWeak).contains c)
        && !((s.filter isNeverStudied).contains c))
    have h5 := hle (s.filter isWeak) (fun c => !((s.filter (isDue now)).contains c))
    simp only [List.count_append, otherCards, dueForReview, weakCards, neverStudied]
    omega

/-- C4 amended: provided no card of the pool is simultaneously
never-studied and due for review (which holds for every card the rating
processor has ever written, since it sets `latestRating` whenever it
sets `nextReviewAt`), the four smart-mode groups are pairwise disjoint
and their shuffled concatenation is a permutation of the non-mastered
subset of the pool; in particular a duplicate-free pool yields a
duplicate-free queue. -/
theorem selector_groups_partition (u : ℕ → ℕ → ℕ) (now : ℤ) (cards : List Flashcard)
    (hinv : ∀ c ∈ cards, c.latestRating = none → isDue now c = false) :
    (smartOrder u now (cards.filter (fun c => !c.mastered))).Perm
        (cards.filter (fun c => !c.mastered)) ∧
    ((dueForReview now (cards.filter (fun c => !c.mastered))).Disjoint
        ((weakCards (cards.filter (fun c => !c.mastered))).filter
          (fun c => !((dueForReview now (cards.filter (fun c => !c.mastered))).contains c))) ∧
      (dueForReview now (cards.filter (fun c => !c.mastered))).Disjoint
        (neverStudied (cards.filter (fun c => !c.mastered))) ∧
      (dueForReview now (cards.filter (fun c => !c.mastered))).Disjoint
        (otherCards now (cards.filter (fun c => !c.mastered))) ∧
      ((weakCards (cards.filter (fun c => !c.mastered))).filter
          (fun c => !((dueForReview now (cards.filter (fun c => !c.mastered))).contains c))).Disjoint
        (neverStudied (cards.filter (fun c => !c.mastered))) ∧
      ((weakCards (cards.filter (fun c => !c.mastered))).filter
          (fun c => !((dueForReview now (cards.filter (fun c => !c.mastered))).contains c))).Disjoint
        (otherCards now (cards.filter (fun c => !c.mastered))) ∧
      (neverStudied (cards.filter (fun c => !c.mastered))).Disjoint
        (otherCards now (cards.filter (fun c => !c.mastered)))) ∧
    (cards.Nodup → (smartOrder u now (cards.filter (fun c => !c.mastered))).Nodup) := by
  have hnd : ∀ c ∈ cards.filter (fun c => !c.mastered),
      isNeverStudied c = true → isDue now c = false := by
    intro c hc hn
    refine hinv c (List.mem_filter.mp hc).1 ?_
    unfold isNeverStudied at hn
    exact Option.isNone_iff_eq_none.mp hn
  have hperm : (smartOrder u now (cards.filter (fun c => !c.mastered))).Perm
      (cards.filter (fun c => !c.mastered)) := by
    have hshuf : (smartOrder u now (cards.filter (fun c => !c.mastered))).Perm
        (dueForReview now (cards.filter (fun c => !c.mastered))
          ++ ((weakCards (cards.filter (fun c => !c.mastered))).filter
              (fun c => !((dueForReview now (cards.filter (fun c => !c.mastered))).contains c))
          ++ (neverStudied (cards.filter (fun c => !c.mastered))
          ++ otherCards now (cards.filter (fun c => !c.mastered))))) := by
      unfold smartOrder
      simp only [List.append_assoc]
      exact (shuffleArray_perm _ _).append ((shuffleArray_perm _ _).append
        ((shuffleArray_perm _ _).append (shuffleArray_perm _ _)))
    refine hshuf.trans ?_
    rw [List.perm_iff_count]
    exact smart_groups_count now (cards.filter (fun c => !c.mastered)) hnd
  refine ⟨hperm, ⟨?_, ?_, ?_, ?_, ?_, ?_⟩, ?_⟩
  · rw [List.disjoint_left]
    intro a hadue haw
    have hmem : a ∈ weakCards (cards.filter (fun c => !c.mastered)) :=
      List.mem_of_mem_filter haw
    have hcontains := (List.mem_filter.mp haw).2
    rw [contains_eq_decide_mem] at hcontains
    simp only [Bool.not_eq_true', decide_eq_false_iff_not] at hcontains
    exact hcontains hadue
  · rw [List.disjoint_left]
    intro a hadue han
    have hd := (List.mem_filter.mp hadue).2
    have hn := (List.mem_filter.mp han).2
    have hmem := (List.mem_filter.mp hadue).1
    have := hnd a hmem hn
    rw [hd] at this
    exact Bool.noConfusion this
  · rw [List.disjoint_left]
    intro a hadue hao
    have := (List.mem_filter.mp hao).2
    simp only [Bool.and_eq_true, Bool.not_eq_true'] at this
    obtain ⟨⟨h1, -⟩, -⟩ := this
    rw [contains_eq_decide_mem] at h1
    simp only [decide_eq_false_iff_not] at h1
    exact h1 hadue
  · rw [List.disjoint_left]
    intro a haw han
    have hw := (List.mem_filter.mp (List.mem_of_mem_filter haw)).2
    have hn := (List.mem_filter.mp han).2
    rw [hweak_not_never_aux a hw] at hn
    exact Bool.noConfusion hn
  · rw [List.disjoint_left]
    intro a haw hao
    have hwmem : a ∈ weakCards (cards.filter (fun c => !c.mastered)) :=
      List.mem_of_mem_filter haw
    have := (List.mem_filter.mp hao).2
    simp only [Bool.and_eq_true, Bool.not_eq_true'] at this
    obtain ⟨⟨-, h2⟩, -⟩ := this
    rw [contains_eq_decide_mem] at h2
    simp only [decide_eq_false_iff_not] at h2
    exact h2 hwmem
  · rw [List.disjoint_left]
    intro a han hao
    have := (List.mem_filter.mp hao).2
    simp only [Bool.and_eq_true, Bool.not_eq_true'] at this
    obtain ⟨-, h3⟩ := this
    rw [contains_eq_decide_mem] at h3
    simp only [decide_eq_false_iff_not] at h3
    exact h3 han
  · intro hnodup
    exact hperm.nodup_iff.mpr (hnodup.filter _)

/-- C4 amended, witness: a two-card pool (one due studied card, one
fresh card) satisfies the invariant, and the smart order permutes the
non-mastered pool. -/
theorem selector_groups_partition_witness :
    (smartOrder (fun _ _ => 0) 50 ([{ ratedCard with nextReviewAt := some 30 }, freshCard].filter
        (fun c => !c.mastered))).Perm
      ([{ ratedCard with nextReviewAt := some 30 }, freshCard].filter (fun c => !c.mastered)) := by
  refine (selector_groups_partition (fun _ _ => 0) 50
    [{ ratedCard with nextReviewAt := some 30 }, freshCard] ?_).1
  intro c hc hlr
  fin_cases hc
  · exact absurd hlr (by decide)
  · rfl

/-- The session-scoped `RatingRecord` of
`src/components/flashcard-viewer.tsx`: what `handleRate` appends to
`sessionRatings`.  `fileId`/`fileName` are copied from the rated card
(nullable in the card record, so `Option` here despite the interface's
non-null annotation). -/
structure RatingRecord where
  cardId : String
  rating : ℤ
  timeSpentMs : ℤ
  fileId : Option String
  fileName : Option String
deriving DecidableEq

/-- The session state of `FlashcardViewer`: the dashboard `flashcards`
state (as updated through persistence — the `store`), the session's
`studyQueue` of card objects captured at session start, and the position,
flip/rating flags and session counters. -/
structure ViewerState where
  store : List Flashcard
  studyQueue : List Flashcard
  currentIndex : ℕ
  isFlipped : Bool
  isRating : Bool
  sessionComplete : Bool
  sessionRatings : List RatingRecord
  cardsStudied : ℕ
  cardsMastered : ℕ
  cardsReshuffled : ℕ
  studiedCardIds : List String
deriving DecidableEq

/-- The requeue insertion index of `handleRate` for `remaining > 3`:
`currentIndex + 1 + Math.floor(remaining * 0.6) + Math.floor(Math.random() * (remaining * 0.4))`
with the random sample `u ∈ [0,1)` injected. -/
def requeueInsertPos (len idx : ℕ) (u : ℚ) : ℕ :=
  idx + 1 + (⌊((len - idx - 1 : ℕ) : ℚ) * (3/5)⌋).toNat
    + (⌊u * (((len - idx - 1 : ℕ) : ℚ) * (2/5))⌋).toNat

/-- The queue mutation of `handleRate` for a low rating: if more than 3
cards remain after the current one, splice a copy of the current card at
`requeueInsertPos` (in bounds for every `u ∈ [0,1)`, see
`requeueInsertPos_bounds`); otherwise push the copy at the end. -/
def requeueQueue (u : ℚ) (q : List Flashcard) (idx : ℕ) (card : Flashcard) : List Flashcard :=
  let remaining := q.length - idx - 1
  if 3 < remaining then
    q.insertIdx (requeueInsertPos q.length idx u) card
  else
    q ++ [card]

/-- `handleRate` of `src/components/flashcard-viewer.tsx` as one atomic
transition.  Guards: no-op while a rating is in flight or when no card
sits at `currentIndex`.  On acceptance: persist through
`handleRateFlashcard`, append the session rating record, update the
distinct-studied set, bump `cardsMastered` when the rating is 5 and the
*queue snapshot's* `consecutiveFives + 1` reaches 3 (the source reads
`currentCard.consecutiveFives`, the value captured at session start, not
the live statistics), requeue on a rating ≤ 2, then run the deferred
advance.  The `setTimeout` callback in the source closes over the
`studyQueue` and `currentIndex` values of the render that started the
rating, so the advance-vs-complete decision compares `currentIndex`
against the *pre-requeue* queue length. -/
def handleRate (now : ℤ) (u : ℚ) (elapsed : ℤ) (rating : ℤ) (st : ViewerState) : ViewerState :=
  if st.isRating then st
  else
    match st.studyQueue[st.currentIndex]? with
    | none => st
    | some currentCard =>
      let store' := handleRateFlashcard now st.store currentCard.id rating
      let sessionRatings' := st.sessionRatings ++
        [{ cardId := currentCard.id, rating := rating, timeSpentMs := elapsed,
           fileId := currentCard.fileId, fileName := currentCard.fileName }]
      let firstTime : Bool := !(st.studiedCardIds.contains currentCard.id)
      let studiedCardIds' :=
        if firstTime then currentCard.id :: st.studiedCardIds else st.studiedCardIds
      let cardsStudied' := if firstTime then st.cardsStudied + 1 else st.cardsStudied
      let cardsMastered' :=
        if rating = 5 ∧ 3 ≤ currentCard.consecutiveFives + 1 then st.cardsMastered + 1
        else st.cardsMastered
      let cardsReshuffled' := if rating ≤ 2 then st.cardsReshuffled + 1 else st.cardsReshuffled
      let studyQueue' :=
        if rating ≤ 2 then requeueQueue u st.studyQueue st.currentIndex currentCard
        else st.studyQueue
      if st.currentIndex < st.studyQueue.length - 1 then
        { store := store', studyQueue := studyQueue',
          currentIndex := st.currentIndex + 1, isFlipped := false, isRating := false,
          sessionComplete := st.sessionComplete, sessionRatings := sessionRatings',
          cardsStudied := cardsStudied', cardsMastered := cardsMastered',
          cardsReshuffled := cardsReshuffled', studiedCardIds := studiedCardIds' }
      else
        { store := store', studyQueue := studyQueue',
          currentIndex := st.currentIndex, isFlipped := false, isRating := false,
          sessionComplete := true, sessionRatings := sessionRatings',
          cardsStudied := cardsStudied', cardsMastered := cardsMastered',
          cardsReshuffled := cardsReshuffled', studiedCardIds := studiedCardIds' }

/-- `goToPrevious` of the viewer: unflip and step back, wrapping from
position 0 to the last index. -/
def goToPrevious (st : ViewerState) : ViewerState :=
  { st with
    isFlipped := false
    currentIndex :=
      if 0 < st.currentIndex then st.currentIndex - 1 else st.studyQueue.length - 1 }

/-- `goToNext` of the viewer: unflip, then advance or complete the
session when already at the last index (of the live queue). -/
def goToNext (st : ViewerState) : ViewerState :=
  if st.currentIndex < st.studyQueue.length - 1 then
    { st with isFlipped := false, currentIndex := st.currentIndex + 1 }
  else
    { st with isFlipped := false, sessionComplete := true }

/-- The digit branch of the viewer's `handleKeyDown`: a digit key rates
only when the card is flipped, no rating is in flight, and the digit is
between 1 and 5; otherwise the input is ignored. -/
def handleKeyDigit (now : ℤ) (u : ℚ) (elapsed : ℤ) (n : ℤ) (st : ViewerState) : ViewerState :=
  if st.isFlipped && !st.isRating then
    if 1 ≤ n ∧ n ≤ 5 then handleRate now u elapsed n st else st
  else st

/-- A session state sitting flipped on the only card of the queue. -/
def lastCardState : ViewerState :=
  { store := [freshCard]
    studyQueue := [freshCard]
    currentIndex := 0
    isFlipped := true
    isRating := false
    sessionComplete := false
    sessionRatings := []
    cardsStudied := 0
    cardsMastered := 0
    cardsReshuffled := 0
    studiedCardIds := [] }

/-- C2 counterexample: the claim says that after the requeue appends a
duplicate, the position is no longer the last index, so the advance
presents the duplicate instead of completing.  On the code, rating 2 on
the last card appends the duplicate (queue length 2) yet the session
still transitions to Complete with the position held at 0 — the advance
closure compares against the pre-requeue queue. -/
theorem rate_low_at_last_cex :
    (handleRate 0 0 0 2 lastCardState).sessionComplete = true ∧
    (handleRate 0 0 0 2 lastCardState).studyQueue.length = 2 ∧
    (handleRate 0 0 0 2 lastCardState).currentIndex = 0 := by
  refine ⟨rfl, rfl, rfl⟩

/-- C2 amended: the deferred advance of `handleRate` compares the
position against the last index of the *pre-requeue* queue.  Rating ≤ 2
at the last index therefore appends a duplicate and still completes the
session (the duplicate is never presented); at any earlier index the
session does not complete and the position advances by one. -/
theorem advance_after_rate_uses_stale_length (now : ℤ) (u : ℚ) (elapsed r : ℤ)
    (st : ViewerState) (hrate : st.isRating = false)
    (hidx : st.currentIndex < st.studyQueue.length) (hr : r ≤ 2) :
    (st.currentIndex = st.studyQueue.length - 1 →
      (handleRate now u elapsed r st).sessionComplete = true ∧
      (handleRate now u elapsed r st).studyQueue.length = st.studyQueue.length + 1 ∧
      (handleRate now u elapsed r st).currentIndex = st.currentIndex) ∧
    (st.currentIndex < st.studyQueue.length - 1 →
      (handleRate now u elapsed r st).sessionComplete = st.sessionComplete ∧
      (handleRate now u elapsed r st).currentIndex = st.currentIndex + 1) := by
  have hcard : st.studyQueue[st.currentIndex]? = some (st.studyQueue.get ⟨st.currentIndex, hidx⟩) :=
    List.getElem?_eq_some_iff.mpr ⟨hidx, rfl⟩
  constructor
  · intro hlast
    have hnotlt : ¬st.currentIndex < st.studyQueue.length - 1 := by omega
    have hrem : st.studyQueue.length - st.currentIndex - 1 = 0 := by omega
    refine ⟨?_, ?_, ?_⟩
    · simp [handleRate, hrate, hcard, hnotlt]
    · simp [handleRate, hrate, hcard, hnotlt, hr, requeueQueue, hrem]
    · simp [handleRate, hrate, hcard, hnotlt]
  · intro hlt
    refine ⟨?_, ?_⟩
    · simp [handleRate, hrate, hcard, hlt]
    · simp [handleRate, hrate, hcard, hlt]

/-- C2 amended, witness: rating 2 on the only card of a one-card queue
grows the queue to 2 and completes the session at position 0. -/
theorem advance_after_rate_uses_stale_length_witness :
    (handleRate 0 0 0 2 lastCardState).sessionComplete = true ∧
    (handleRate 0 0 0 2 lastCardState).studyQueue.length = 1 + 1 ∧
    (handleRate 0 0 0 2 lastCardState).currentIndex = 0 := by
  have h := (advance_after_rate_uses_stale_length 0 0 0 2 lastCardState rfl
    (by decide) (by decide)).1 (by decide)
  exact h

/-- C6 counterexample: the claim says a rating outside [1,5] is rejected
without mutating any state.  Invoking the rating processor with rating 0
increments the rating count, records the rating as latest, and leaves no
valid next-review date — the processor performs no range validation. -/
theorem invalid_rating_mutates_cex :
    freshCard.ratingCount = 0 ∧
    (handleRateStats 0 0 freshCard).ratingCount = 1 ∧
    (handleRateStats 0 0 freshCard).latestRating = some 0 ∧
    (handleRateStats 0 0 freshCard).nextReviewAt = none := by
  refine ⟨rfl, rfl, rfl, rfl⟩

/-- C6 amended: ratings outside [1,5] are rejected only at the keyboard
input boundary (the digit handler ignores them, leaving the session state
untouched); the rating processor itself performs no validation — invoked
directly with such a rating it still increments the rating count,
overwrites the latest rating, resets the streak, and produces no defined
next-review date because the interval lookup misses. -/
theorem invalid_rating_keyboard_only (now : ℤ) (u : ℚ) (elapsed r : ℤ)
    (st : ViewerState) (c : Flashcard) (hr : r < 1 ∨ 5 < r) :
    handleKeyDigit now u elapsed r st = st ∧
    (handleRateStats now r c).ratingCount = c.ratingCount + 1 ∧
    (handleRateStats now r c).latestRating = some r ∧
    (handleRateStats now r c).consecutiveFives = 0 ∧
    (handleRateStats now r c).nextReviewAt = none := by
  have h1 : r ≠ 1 := by omega
  have h2 : r ≠ 2 := by omega
  have h3 : r ≠ 3 := by omega
  have h4 : r ≠ 4 := by omega
  have h5 : r ≠ 5 := by omega
  refine ⟨?_, rfl, rfl, ?_, ?_⟩
  · unfold handleKeyDigit
    have : ¬(1 ≤ r ∧ r ≤ 5) := by omega
    rw [if_neg this]
    split <;> rfl
  · simp [handleRateStats, h5]
  · simp [handleRateStats, REVIEW_INTERVALS, h1, h2, h3, h4, h5]

/-- C6 amended, witness: digit 0 is ignored by the keyboard handler while
the processor, invoked directly with rating 0, mutates the statistics. -/
theorem invalid_rating_keyboard_only_witness :
    handleKeyDigit 0 0 0 0 lastCardState = lastCardState ∧
    (handleRateStats 0 0 freshCard).ratingCount = freshCard.ratingCount + 1 ∧
    (handleRateStats 0 0 freshCard).latestRating = some 0 ∧
    (handleRateStats 0 0 freshCard).consecutiveFives = 0 ∧
    (handleRateStats 0 0 freshCard).nextReviewAt = none :=
  invalid_rating_keyboard_only 0 0 0 0 lastCardState freshCard (Or.inl (by decide))

/-- Splitting an integer into its 3/5-floor and 2/5-ceiling parts. -/
theorem floor_ceil_split (r : ℕ) :
    ⌊(r : ℚ) * (3/5)⌋ + ⌈(r : ℚ) * (2/5)⌉ = r := by
  have hx : (r : ℚ) * (2/5) = -((r : ℚ) * (3/5)) + (r : ℚ) := by ring
  rw [hx]
  rw [show (-((r : ℚ) * (3/5)) + (r : ℚ)) = -((r : ℚ) * (3/5)) + ((r : ℤ) : ℚ) by push_cast; ring]
  rw [Int.ceil_add_int, Int.ceil_neg]
  omega

/-- For `u ∈ [0,1)` the jitter `⌊u * x⌋` is nonnegative and below `⌈x⌉`. -/
theorem jitter_bounds (u x : ℚ) (hu0 : 0 ≤ u) (hu1 : u < 1) (hx : 0 < x) :
    0 ≤ ⌊u * x⌋ ∧ ⌊u * x⌋ < ⌈x⌉ := by
  constructor
  · exact Int.floor_nonneg.mpr (mul_nonneg hu0 hx.le)
  · rw [Int.floor_lt]
    calc u * x < 1 * x := mul_lt_mul_of_pos_right hu1 hx
    _ = x := one_mul x
    _ ≤ (⌈x⌉ : ℚ) := Int.le_ceil x

/-- For every legal random sample the requeue insertion index lies
between `idx + 1 + ⌊remaining·0.6⌋` and the queue's last index. -/
theorem requeueInsertPos_bounds (len idx : ℕ) (u : ℚ) (hidx : idx < len)
    (hu0 : 0 ≤ u) (hu1 : u < 1) (hrem : 0 < len - idx - 1) :
    idx + 1 + (⌊((len - idx - 1 : ℕ) : ℚ) * (3/5)⌋).toNat ≤ requeueInsertPos len idx u ∧
    requeueInsertPos len idx u ≤ len - 1 := by
  have hrq : (0 : ℚ) < ((len - idx - 1 : ℕ) : ℚ) := by exact_mod_cast hrem
  have hx : (0 : ℚ) < ((len - idx - 1 : ℕ) : ℚ) * (2/5) := by positivity
  obtain ⟨hj0, hjlt⟩ := jitter_bounds u (((len - idx - 1 : ℕ) : ℚ) * (2/5)) hu0 hu1 hx
  have hfl0 : 0 ≤ ⌊((len - idx - 1 : ℕ) : ℚ) * (3/5)⌋ :=
    Int.floor_nonneg.mpr (by positivity)
  have hkey := floor_ceil_split (len - idx - 1)
  unfold requeueInsertPos
  omega

/-- The fields of `handleRate` after an accepted rating (not in flight,
card present at the current position), independent of whether the
deferred advance completes the session or moves on. -/
theorem handleRate_accepted (now : ℤ) (u : ℚ) (elapsed r : ℤ) (st : ViewerState)
    (card : Flashcard) (hrate : st.isRating = false)
    (hcard : st.studyQueue[st.currentIndex]? = some card) :
    (handleRate now u elapsed r st).studyQueue
      = (if r ≤ 2 then requeueQueue u st.studyQueue st.currentIndex card
        else st.studyQueue) ∧
    (handleRate now u elapsed r st).cardsReshuffled
      = (if r ≤ 2 then st.cardsReshuffled + 1 else st.cardsReshuffled) ∧
    (handleRate now u elapsed r st).cardsMastered
      = (if r = 5 ∧ 3 ≤ card.consecutiveFives + 1 then st.cardsMastered + 1
        else st.cardsMastered) ∧
    (handleRate now u elapsed r st).store = handleRateFlashcard now st.store card.id r ∧
    (handleRate now u elapsed r st).sessionRatings
      = st.sessionRatings ++
        [{ cardId := card.id, rating := r, timeSpentMs := elapsed,
           fileId := card.fileId, fileName := card.fileName }] := by
  simp only [handleRate, hrate, Bool.false_eq_true, if_false, hcard]
  split <;> exact ⟨rfl, rfl, rfl, rfl, rfl⟩

/-- C3 counterexample: the claim says the jitter is drawn from the
integer range `[0, ⌊remaining·0.4⌋)`, so with `remaining = 9` the
insertion index is strictly below
`position + 1 + ⌊9·0.6⌋ + ⌊9·0.4⌋ = 9`.  The legal sample `u = 9/10`
gives `⌊0.9 · 3.6⌋ = 3` and insertion index exactly 9. -/
theorem requeue_jitter_range_cex :
    (0 ≤ (9/10 : ℚ) ∧ (9/10 : ℚ) < 1) ∧
    requeueInsertPos 10 0 (9/10) = 9 ∧
    ¬(requeueInsertPos 10 0 (9/10)
        < 0 + 1 + (⌊((10 - 0 - 1 : ℕ) : ℚ) * (3/5)⌋).toNat
          + (⌊((10 - 0 - 1 : ℕ) : ℚ) * (2/5)⌋).toNat) := by
  have hcast : ((10 - 0 - 1 : ℕ) : ℚ) = 9 := by norm_num
  have h1 : ⌊(9 : ℚ) * (3/5)⌋ = 5 := by
    rw [Int.floor_eq_iff] <;> norm_num
  have h2 : ⌊(9/10 : ℚ) * ((9 : ℚ) * (2/5))⌋ = 3 := by
    rw [Int.floor_eq_iff] <;> norm_num
  have h3 : ⌊(9 : ℚ) * (2/5)⌋ = 3 := by
    rw [Int.floor_eq_iff] <;> norm_num
  have hpos : requeueInsertPos 10 0 (9/10) = 9 := by
    unfold requeueInsertPos
    rw [hcast, h1, h2]
    rfl
  refine ⟨⟨by norm_num, by norm_num⟩, hpos, ?_⟩
  rw [hpos, hcast, h1, h3]
  omega

/-- C3 amended: an accepted rating ≤ 2 increments `requeued_count` and
inserts exactly one copy of the current card at an index strictly after
the current position, growing the queue by exactly one.  For
`remaining > 3` the index is
`position + 1 + ⌊remaining·0.6⌋ + ⌊u·(remaining·0.4)⌋` with `u ∈ [0,1)`
— the jitter ranges over `[0, ⌈remaining·0.4⌉ - 1]`, which exceeds the
claim's `[0, ⌊remaining·0.4⌋)` whenever `remaining·0.4` is not an
integer — and never passes the last index; otherwise the copy is
appended at the end.  For `remaining = 10` the index lies between
`position + 7` and `position + 10` inclusive. -/
theorem requeue_postcondition (now : ℤ) (u : ℚ) (elapsed r : ℤ) (st : ViewerState)
    (hrate : st.isRating = false) (hidx : st.currentIndex < st.studyQueue.length)
    (hr : r ≤ 2) (hu0 : 0 ≤ u) (hu1 : u < 1) :
    (handleRate now u elapsed r st).cardsReshuffled = st.cardsReshuffled + 1 ∧
    ∃ ip, st.currentIndex < ip ∧ ip ≤ st.studyQueue.length ∧
      (handleRate now u elapsed r st).studyQueue
        = st.studyQueue.insertIdx ip (st.studyQueue.get ⟨st.currentIndex, hidx⟩) ∧
      (handleRate now u elapsed r st).studyQueue.length = st.studyQueue.length + 1 ∧
      (3 < st.studyQueue.length - st.currentIndex - 1 →
        ip = requeueInsertPos st.studyQueue.length st.currentIndex u ∧
        st.currentIndex + 1
            + (⌊((st.studyQueue.length - st.currentIndex - 1 : ℕ) : ℚ) * (3/5)⌋).toNat ≤ ip ∧
        ip ≤ st.studyQueue.length - 1) ∧
      (st.studyQueue.length - st.currentIndex - 1 ≤ 3 → ip = st.studyQueue.length) ∧
      (st.studyQueue.length - st.currentIndex - 1 = 10 →
        st.currentIndex + 7 ≤ ip ∧ ip ≤ st.currentIndex + 10) := by
  have hcard : st.studyQueue[st.currentIndex]?
      = some (st.studyQueue.get ⟨st.currentIndex, hidx⟩) :=
    List.getElem?_eq_some_iff.mpr ⟨hidx, rfl⟩
  obtain ⟨hq, hrc, -, -, -⟩ :=
    handleRate_accepted now u elapsed r st (st.studyQueue.get ⟨st.currentIndex, hidx⟩) hrate hcard
  rw [if_pos hr] at hq hrc
  refine ⟨hrc, ?_⟩
  by_cases hrem : 3 < st.studyQueue.length - st.currentIndex - 1
  · refine ⟨requeueInsertPos st.studyQueue.length st.currentIndex u, ?_, ?_, ?_, ?_, ?_, ?_, ?_⟩
    · obtain ⟨hlo, -⟩ := requeueInsertPos_bounds st.studyQueue.length st.currentIndex u
        hidx hu0 hu1 (by omega)
      omega
    · obtain ⟨-, hhi⟩ := requeueInsertPos_bounds st.studyQueue.length st.currentIndex u
        hidx hu0 hu1 (by omega)
      omega
    · rw [hq]
      unfold requeueQueue
      rw [if_pos hrem]
    · rw [hq]
      unfold requeueQueue
      rw [if_pos hrem]
      obtain ⟨-, hhi⟩ := requeueInsertPos_bounds st.studyQueue.length st.currentIndex u
        hidx hu0 hu1 (by omega)
      exact List.length_insertIdx _ _ (by omega)
    · intro _
      obtain ⟨hlo, hhi⟩ := requeueInsertPos_bounds st.studyQueue.length st.currentIndex u
        hidx hu0 hu1 (by omega)
      exact ⟨rfl, hlo, hhi⟩
    · intro hle
      omega
    · intro h10
      obtain ⟨hlo, hhi⟩ := requeueInsertPos_bounds st.studyQueue.length st.currentIndex u
        hidx hu0 hu1 (by omega)
      have hfl : ⌊((st.studyQueue.length - st.currentIndex - 1 : ℕ) : ℚ) * (3/5)⌋ = 6 := by
        rw [h10]
        rw [show ((10 : ℕ) : ℚ) = 10 by norm_num]
        rw [Int.floor_eq_iff] <;> norm_num
      rw [hfl] at hlo
      constructor
      · omega
      · omega
  · refine ⟨st.studyQueue.length, hidx, le_refl _, ?_, ?_, ?_, ?_, ?_⟩
    · rw [hq]
      unfold requeueQueue
      rw [if_neg hrem, List.insertIdx_length_self]
    · rw [hq]
      unfold requeueQueue
      rw [if_neg hrem]
      simp
    · intro hcon
      exact absurd hcon hrem
    · intro _
      rfl
    · intro h10
      omega

/-- C3 amended, witness: rating 2 on the only card of a one-card queue
increments the requeue counter. -/
theorem requeue_postcondition_witness :
    (handleRate 0 0 0 2 lastCardState).cardsReshuffled = lastCardState.cardsReshuffled + 1 :=
  (requeue_postcondition 0 0 0 2 lastCardState rfl (by decide) (by decide)
    (by norm_num) (by norm_num)).1

/-- A card two fives away from the streak of three, not yet mastered. -/
def almostMasteredCard : Flashcard :=
  { masteredCard with
    latestRating := some 5
    ratingCount := 2
    consecutiveFives := 2
    mastered := false
    masteredAt := none }

/-- A second distinct fresh card. -/
def freshCardB : Flashcard :=
  { freshCard with id := "B" }

/-- A two-card session flipped on the first card, with live store equal
to the queue snapshot at session start. -/
def twoCardState : ViewerState :=
  { store := [almostMasteredCard, freshCardB]
    studyQueue := [almostMasteredCard, freshCardB]
    currentIndex := 0
    isFlipped := true
    isRating := false
    sessionComplete := false
    sessionRatings := []
    cardsStudied := 0
    cardsMastered := 0
    cardsReshuffled := 0
    studiedCardIds := [] }

/-- C5 counterexample: the claim says `mastered_this_session` is never
incremented for a card already mastered before the rating.  Rate card A
(streak 2) with 5 — it becomes mastered in the store and the counter
reaches 1 — then navigate back and rate it 5 again: the store already
has it mastered, yet the counter climbs to 2, because the check reads
the queue snapshot's streak (2) captured at session start. -/
theorem mastered_counter_cex :
    ((goToPrevious (handleRate 0 0 0 5 twoCardState)).store.find?
        (fun f => f.id = "A")).map (fun f => f.mastered) = some true ∧
    (goToPrevious (handleRate 0 0 0 5 twoCardState)).cardsMastered = 1 ∧
    (handleRate 0 0 0 5 (goToPrevious (handleRate 0 0 0 5 twoCardState))).cardsMastered
      = 2 := by
  refine ⟨rfl, rfl, rfl⟩

/-- C5 amended: an accepted rating bumps `mastered_this_session` exactly
when the rating is 5 and the *session-start snapshot* of the card (the
queue entry) has `consecutiveFives + 1 ≥ 3`; the live statistics — and
with them fives given earlier in the same session or an
already-achieved mastery — are not consulted. -/
theorem mastered_counter_uses_snapshot (now : ℤ) (u : ℚ) (elapsed r : ℤ)
    (st : ViewerState) (card : Flashcard) (hrate : st.isRating = false)
    (hcard : st.studyQueue[st.currentIndex]? = some card) :
    (handleRate now u elapsed r st).cardsMastered
      = if r = 5 ∧ 3 ≤ card.consecutiveFives + 1 then st.cardsMastered + 1
        else st.cardsMastered :=
  (handleRate_accepted now u elapsed r st card hrate hcard).2.2.1

/-- C5 amended, witness: rating the almost-mastered snapshot card 5
increments the counter from 0 to 1. -/
theorem mastered_counter_uses_snapshot_witness :
    (handleRate 0 0 0 5 twoCardState).cardsMastered = 1 := by
  have h := mastered_counter_uses_snapshot 0 0 0 5 twoCardState almostMasteredCard rfl rfl
  simpa using h

/-- The per-file aggregate stored in the `fileMap` of
`calculateSessionSummary`: event count, rating total, and the display
name captured from the first event of the group. -/
structure FileAgg where
  cardCount : ℕ
  totalRating : ℤ
  fileName : Option String
deriving DecidableEq

/-- One `forEach` step of `calculateSessionSummary`: bump the existing
entry for the record's `fileId` or append a fresh entry (JavaScript
`Map` preserves insertion order, hence the ordered association list). -/
def bumpFile (acc : List (Option String × FileAgg)) (r : RatingRecord) :
    List (Option String × FileAgg) :=
  match acc with
  | [] => [(r.fileId, ⟨1, r.rating, r.fileName⟩)]
  | (k, d) :: rest =>
    if k = r.fileId then
      (k, ⟨d.cardCount + 1, d.totalRating + r.rating, d.fileName⟩) :: rest
    else
      (k, d) :: bumpFile rest r

/-- The `fileMap` of `calculateSessionSummary` after all session
ratings. -/
def buildFileMap (rs : List RatingRecord) : List (Option String × FileAgg) :=
  rs.foldl bumpFile []

/-- One entry of the summary's `fileBreakdown`. -/
structure FileBreakdownEntry where
  fileId : Option String
  fileName : Option String
  cardCount : ℕ
  averageRating : ℚ
deriving DecidableEq

/-- The `fileBreakdown` of `calculateSessionSummary`: the map entries
with the group average computed from total and count. -/
def fileBreakdown (rs : List RatingRecord) : List FileBreakdownEntry :=
  (buildFileMap rs).map (fun e =>
    { fileId := e.1, fileName := e.2.fileName, cardCount := e.2.cardCount,
      averageRating := (e.2.totalRating : ℚ) / (e.2.cardCount : ℚ) })

/-- Sum of the numeric ratings of a list of session records. -/
def sumRatings (l : List RatingRecord) : ℤ :=
  (l.map (fun r => r.rating)).sum

/-- Lookup of a file key in the aggregation list. -/
def findAgg (k : Option String) (l : List (Option String × FileAgg)) : Option FileAgg :=
  (l.find? (fun e => decide (e.1 = k))).map Prod.snd

/-- Merging a batch of same-key records into an optional aggregate. -/
def mergeAgg : Option FileAgg → List RatingRecord → Option FileAgg
  | o, [] => o
  | some d, l => some ⟨d.cardCount + l.length, d.totalRating + sumRatings l, d.fileName⟩
  | none, r :: rest => some ⟨(r :: rest).length, sumRatings (r :: rest), r.fileName⟩

/-- Bumping a record updates exactly its own key's aggregate. -/
theorem findAgg_bump_eq (r : RatingRecord) :
    ∀ acc, findAgg r.fileId (bumpFile acc r)
      = some (match findAgg r.fileId acc with
        | none => ⟨1, r.rating, r.fileName⟩
        | some d => ⟨d.cardCount + 1, d.totalRating + r.rating, d.fileName⟩)
  | [] => by simp [findAgg, bumpFile]
  | (k, d) :: rest => by
    unfold bumpFile
    by_cases hk : k = r.fileId
    · rw [if_pos hk]
      unfold findAgg
      rw [List.find?_cons_of_pos _ (by simp [hk]), List.find?_cons_of_pos _ (by simp [hk])]
      simp
    · rw [if_neg hk]
      unfold findAgg
      rw [List.find?_cons_of_neg _ (by simp [hk]), List.find?_cons_of_neg _ (by simp [hk])]
      simpa [findAgg] using findAgg_bump_eq r rest

/-- Bumping a record leaves every other key's aggregate unchanged. -/
theorem findAgg_bump_ne (r : RatingRecord) (k : Option String) (hk : k ≠ r.fileId) :
    ∀ acc, findAgg k (bumpFile acc r) = findAgg k acc
  | [] => by simp [findAgg, bumpFile, Ne.symm hk]
  | (k0, d) :: rest => by
    unfold bumpFile
    by_cases hk0 : k0 = r.fileId
    · rw [if_pos hk0]
      have hne : ¬(((k0, (⟨d.cardCount + 1, d.totalRating + r.rating, d.fileName⟩ : FileAgg))).1 = k) :=
        fun h => hk (h ▸ hk0)
      have hne' : ¬(((k0, d) : Option String × FileAgg).1 = k) := fun h => hk (h ▸ hk0)
      unfold findAgg
      rw [List.find?_cons_of_neg _ (by simpa using hne), List.find?_cons_of_neg _ (by simpa using hne')]
    · rw [if_neg hk0]
      unfold findAgg
      by_cases hke : k0 = k
      · rw [List.find?_cons_of_pos _ (by simp [hke]), List.find?_cons_of_pos _ (by simp [hke])]
      · rw [List.find?_cons_of_neg _ (by simp [hke]), List.find?_cons_of_neg _ (by simp [hke])]
        simpa [findAgg] using findAgg_bump_ne r k hk rest

/-- Absorbing one record into an aggregate and then a batch is the same
as absorbing the record-then-batch. -/
theorem mergeAgg_step (o : Option FileAgg) (r : RatingRecord) (l : List RatingRecord) :
    mergeAgg (some (match o with
      | none => ⟨1, r.rating, r.fileName⟩
      | some d => ⟨d.cardCount + 1, d.totalRating + r.rating, d.fileName⟩)) l
      = mergeAgg o (r :: l) := by
  cases o with
  | none =>
    cases l with
    | nil => simp [mergeAgg, sumRatings]
    | cons x xs =>
      show some _ = some _
      rw [Option.some.injEq, FileAgg.mk.injEq]
      refine ⟨?_, ?_, rfl⟩
      · simp only [sumRatings, List.length_cons]
        omega
      · simp only [sumRatings, List.map_cons, List.sum_cons]
  | some d =>
    cases l with
    | nil => simp [mergeAgg, sumRatings]
    | cons x xs =>
      show some _ = some _
      rw [Option.some.injEq, FileAgg.mk.injEq]
      refine ⟨?_, ?_, rfl⟩
      · simp only [sumRatings, List.length_cons]
        omega
      · simp only [sumRatings, List.map_cons, List.sum_cons]
        ring

/-- The file map groups the session records by key: looking up any key
after the fold yields the merge of its prior aggregate with the
records carrying that key. -/
theorem buildFileMap_find (k : Option String) :
    ∀ (rs : List RatingRecord) (acc : List (Option String × FileAgg)),
      findAgg k (rs.foldl bumpFile acc)
        = mergeAgg (findAgg k acc) (rs.filter (fun r => decide (r.fileId = k)))
  | [], acc => by simp [mergeAgg]
  | r :: rs, acc => by
    rw [List.foldl_cons, buildFileMap_find k rs (bumpFile acc r)]
    by_cases hk : r.fileId = k
    · rw [List.filter_cons_of_pos (by simp [hk])]
      rw [← hk]
      rw [findAgg_bump_eq r acc]
      rw [mergeAgg_step]
    · rw [List.filter_cons_of_neg (by simp [hk])]
      rw [findAgg_bump_ne r k (fun h => hk h.symm) acc]

/-- Bumping a record grows the total event count by one. -/
theorem sumCounts_bump (r : RatingRecord) :
    ∀ acc, ((bumpFile acc r).map (fun e => e.2.cardCount)).sum
      = ((acc.map (fun e => e.2.cardCount)).sum) + 1
  | [] => by simp [bumpFile]
  | (k, d) :: rest => by
    by_cases hk : k = r.fileId
    · simp [bumpFile, hk]
      omega
    · have ih := sumCounts_bump r rest
      simp [bumpFile, hk]
      omega

/-- The total event count of the file map equals the number of records
folded in. -/
theorem sumCounts_fold :
    ∀ (rs : List RatingRecord) (acc : List (Option String × FileAgg)),
      ((rs.foldl bumpFile acc).map (fun e => e.2.cardCount)).sum
        = ((acc.map (fun e => e.2.cardCount)).sum) + rs.length
  | [], acc => by simp
  | r :: rs, acc => by
    rw [List.foldl_cons, sumCounts_fold rs (bumpFile acc r), sumCounts_bump r acc]
    simp
    omega

/-- Bumping preserves the key list up to appending a genuinely new key. -/
theorem bumpFile_keys (r : RatingRecord) :
    ∀ acc, (bumpFile acc r).map Prod.fst
      = if r.fileId ∈ acc.map Prod.fst then acc.map Prod.fst
        else acc.map Prod.fst ++ [r.fileId]
  | [] => by simp [bumpFile]
  | (k, d) :: rest => by
    by_cases hk : k = r.fileId
    · simp [bumpFile, hk]
    · have ih := bumpFile_keys r rest
      simp only [bumpFile, if_neg hk, List.map_cons, ih]
      by_cases hmem : r.fileId ∈ rest.map Prod.fst
      · simp [hmem, Ne.symm hk]
      · simp [hmem, Ne.symm hk]

/-- The file map never holds two entries with the same key. -/
theorem buildFileMap_keys_nodup :
    ∀ (rs : List RatingRecord) (acc : List (Option String × FileAgg)),
      (acc.map Prod.fst).Nodup → ((rs.foldl bumpFile acc).map Prod.fst).Nodup
  | [], acc => fun h => h
  | r :: rs, acc => fun h => by
    rw [List.foldl_cons]
    refine buildFileMap_keys_nodup rs (bumpFile acc r) ?_
    rw [bumpFile_keys r acc]
    by_cases hmem : r.fileId ∈ acc.map Prod.fst
    · simpa [hmem] using h
    · simp only [hmem, if_false]
      simp [List.nodup_append, h, hmem]

/-- Two entries with the same key in a key-nodup association list
coincide. -/
theorem agg_eq_of_keys_nodup :
    ∀ (l : List (Option String × FileAgg)), (l.map Prod.fst).Nodup →
      ∀ {k : Option String} {d1 d2 : FileAgg}, (k, d1) ∈ l → (k, d2) ∈ l → d1 = d2
  | [], _, _, _, _, h1, _ => by simp at h1
  | (k0, d0) :: rest, hnd, k, d1, d2, h1, h2 => by
    simp only [List.map_cons, List.nodup_cons] at hnd
    obtain ⟨hk0, hnd'⟩ := hnd
    rcases List.mem_cons.mp h1 with he1 | ht1
    · rcases List.mem_cons.mp h2 with he2 | ht2
      · have hd1 : d1 = d0 := congrArg Prod.snd he1
        have hd2 : d2 = d0 := congrArg Prod.snd he2
        rw [hd1, hd2]
      · exfalso
        apply hk0
        have hkk : k = k0 := congrArg Prod.fst he1
        exact hkk ▸ List.mem_map_of_mem Prod.fst ht2
    · rcases List.mem_cons.mp h2 with he2 | ht2
      · exfalso
        apply hk0
        have hkk : k = k0 := congrArg Prod.fst he2
        exact hkk ▸ List.mem_map_of_mem Prod.fst ht1
      · exact agg_eq_of_keys_nodup rest hnd' ht1 ht2

/-- C10: the `fileBreakdown` of the Session Summarizer never drops
events of cards without an origin file: its `cardCount` values always
sum to the number of collected rating events, and whenever null-file
events exist they are all grouped under one single entry with the null
key, whose count is the number of those events and whose average is
their mean rating. -/
theorem file_breakdown_null_grouping (rs : List RatingRecord) :
    ((fileBreakdown rs).map (fun e => e.cardCount)).sum = rs.length ∧
    (rs.filter (fun r => decide (r.fileId = none)) ≠ [] →
      ∃ e ∈ fileBreakdown rs, e.fileId = none ∧
        e.cardCount = (rs.filter (fun r => decide (r.fileId = none))).length ∧
        e.averageRating
          = ((sumRatings (rs.filter (fun r => decide (r.fileId = none))) : ℤ) : ℚ)
            / (((rs.filter (fun r => decide (r.fileId = none))).length : ℕ) : ℚ) ∧
        ∀ e' ∈ fileBreakdown rs, e'.fileId = none → e' = e) := by
  constructor
  · unfold fileBreakdown
    rw [List.map_map]
    have := sumCounts_fold rs []
    simpa [buildFileMap, Function.comp] using this
  · intro hne
    have hfind := buildFileMap_find none rs []
    rcases hnull : rs.filter (fun r => decide (r.fileId = none)) with _ | ⟨n0, ntail⟩
    · exact absurd hnull hne
    · rw [hnull] at hfind
      have hbase : findAgg none ([] : List (Option String × FileAgg)) = none := rfl
      rw [hbase] at hfind
      have hagg : findAgg none (buildFileMap rs)
          = some ⟨(n0 :: ntail).length, sumRatings (n0 :: ntail), n0.fileName⟩ := by
        rw [buildFileMap, hfind]
        rfl
      unfold findAgg at hagg
      rcases hfq : (buildFileMap rs).find? (fun e => decide (e.1 = none)) with _ | entry
      · rw [hfq] at hagg
        simp at hagg
      · rw [hfq] at hagg
        simp at hagg
        have hmem : entry ∈ buildFileMap rs := List.mem_of_find?_eq_some hfq
        have hkey : entry.1 = none := by
          have := List.find?_some hfq
          simpa using this
        have hnodup : ((buildFileMap rs).map Prod.fst).Nodup :=
          buildFileMap_keys_nodup rs [] (by simp)
        refine ⟨⟨entry.1, entry.2.fileName, entry.2.cardCount,
            (entry.2.totalRating : ℚ) / (entry.2.cardCount : ℚ)⟩,
          List.mem_map_of_mem _ hmem, hkey, ?_, ?_, ?_⟩
        · show entry.2.cardCount = _
          rw [hagg, hnull]
          simp
        · show (entry.2.totalRating : ℚ) / (entry.2.cardCount : ℚ) = _
          rw [hagg, hnull]
          simp
        · intro e' he' hid'
          obtain ⟨entry', hmem', hmap'⟩ := List.mem_map.mp he'
          have hkey' : entry'.1 = none := by
            rw [← hmap'] at hid'
            exact hid'
          have hm1 : ((none : Option String), entry'.2) ∈ buildFileMap rs := by
            rw [← hkey', Prod.mk.eta]
            exact hmem'
          have hm2 : ((none : Option String), entry.2) ∈ buildFileMap rs := by
            rw [← hkey, Prod.mk.eta]
            exact hmem
          have hentry : entry'.2 = entry.2 :=
            agg_eq_of_keys_nodup (buildFileMap rs) hnodup hm1 hm2
          rw [← hmap']
          simp [hkey, hkey', hentry]

/-- Concrete session ratings: two null-file events around one file
event. -/
def demoRatings : List RatingRecord :=
  [{ cardId := "A", rating := 5, timeSpentMs := 10, fileId := none, fileName := none },
   { cardId := "B", rating := 3, timeSpentMs := 10, fileId := some "f1", fileName := some "Notes" },
   { cardId := "C", rating := 1, timeSpentMs := 10, fileId := none, fileName := none }]

/-- C10 witness: on the concrete session the counts sum to 3 and the two
null-file events share one breakdown entry. -/
theorem file_breakdown_null_grouping_witness :
    ((fileBreakdown demoRatings).map (fun e => e.cardCount)).sum = demoRatings.length ∧
    ∃ e ∈ fileBreakdown demoRatings, e.fileId = none ∧
      e.cardCount = (demoRatings.filter (fun r => decide (r.fileId = none))).length := by
  obtain ⟨h1, h2⟩ := file_breakdown_null_grouping demoRatings
  obtain ⟨e, he, hid, hcc, -, -⟩ := h2 (by decide)
  exact ⟨h1, e, he, hid, hcc⟩

end Collate
